import Mathlib

/-!
Shallow embedding of the `muse` procedural song generator (src/foo.py).

Conventions used throughout:
* Python ints are modelled as `Int` (or `Nat` where the source value is a
  count/index that is provably non-negative).
* Python raised exceptions are modelled with `Except`/`Option` return types.
* Python's global `random` draws are modelled by an explicit stream
  `rnd : Nat → Nat` of arbitrary naturals; a call `randint(0, n-1)` at draw
  counter `k` is modelled as `rnd k % n`.  Quantifying over all streams covers
  every possible outcome of the draws (every value in `[0, n-1]` is `r % n`
  for a suitable `r`).
* Time in the melody generator: the source measures time in floating-point
  fractions of a measure, where every occurring duration is a multiple of
  `0.125 = 1/8` and all sums stay far below 2^52, so every addition and
  comparison performed by the source is exact.  We therefore scale all
  durations by 8 and use `Nat` "eighth-of-a-measure" units (`0.125` becomes
  `1`, `1.5` becomes `12`, a bar is `8`).
-/

namespace Muse

/-- Errors raised by `note_number` (src/foo.py lines 124-138).
`invalidNoteName` is the explicit `Exception('Bad note input ...')` raised when
the regex does not match; `valueError` is the uncaught `ValueError` escaping
from `keys_in_octave.index(note)` when the (remapped) name is not a standard
key; `indexError` is the uncaught `IndexError` from `note[0]` on an empty
string. -/
inductive NoteError where
  | invalidNoteName
  | valueError
  | indexError
deriving DecidableEq, Repr

/-- Decidable equality for `Except`, so that concrete runs of the fallible
operations can be checked by `decide`. -/
instance instDecEqExcept {ε α : Type} [DecidableEq ε] [DecidableEq α] :
    DecidableEq (Except ε α) := fun a b =>
  match a, b with
  | .ok x, .ok y =>
    if h : x = y then .isTrue (by rw [h]) else .isFalse (fun he => h (Except.ok.inj he))
  | .error x, .error y =>
    if h : x = y then .isTrue (by rw [h]) else .isFalse (fun he => h (Except.error.inj he))
  | .ok _, .error _ => .isFalse (fun he => Except.noConfusion he)
  | .error _, .ok _ => .isFalse (fun he => Except.noConfusion he)

/-- Standard notes in an octave (src/foo.py line 10), written as one list
in the source: C, C#, D, D#, E, F, F#, G, G#, A, A#, B. -/
def keys_in_octave : List String :=
  ["C", "C#", "D", "D#", "E", "F"] ++ ["F#", "G", "G#", "A", "A#", "B"]

/-- Remapping of certain note values to more standard note names
(src/foo.py lines 12-22). -/
def note_remap : List (String × String) :=
  [("Db", "C#"), ("Eb", "D#"), ("E#", "F"), ("Fb", "E"), ("Gb", "F#"),
   ("Ab", "G#"), ("Bb", "A#"), ("B#", "C"), ("Cb", "B")]

/-- Relative positions of notes in a major scale (src/foo.py line 27). -/
def major_scale_progression : List Int := [0, 2, 4, 5, 7, 9, 11, 12]

/-- Relative positions of notes in a minor scale (src/foo.py line 28). -/
def minor_scale_progression : List Int := [0, 2, 3, 5, 7, 8, 10, 12]

/-- Chord transition graph for major keys (src/foo.py lines 32-40). -/
def transitions_major : List (String × List String) :=
  [("I", ["I", "ii", "iii", "IV", "V", "vi", "vii0"]),
   ("ii", ["V", "vii0"]),
   ("iii", ["IV", "vi"]),
   ("IV", ["I", "ii", "V", "vii0"]),
   ("V", ["I", "vi"]),
   ("vi", ["ii", "IV", "V"]),
   ("vii0", ["I"])]

/-- Chord transition graph for minor keys (src/foo.py lines 41-50). -/
def transitions_minor : List (String × List String) :=
  [("i", ["i", "ii0", "III", "iv", "V", "VI", "VII", "vii0"]),
   ("ii0", ["V", "vii0"]),
   ("III", ["iv", "VI"]),
   ("iv", ["i", "ii0", "V", "vii0"]),
   ("V", ["i", "VI"]),
   ("VI", ["ii0", "iv", "V"]),
   ("VII", ["III"]),
   ("vii0", ["i", "V"])]

/-- Python dict lookup `d[s]` on a string-keyed association list; `none` models
a raised `KeyError`. -/
def dictGet {α : Type} (d : List (String × α)) (s : String) : Option α :=
  (d.find? (fun p => p.1 == s)).map (fun p => p.2)

/-- The literal major-triad table as written in the source before the minor
derivations run (src/foo.py lines 64-74). -/
def triad_notes_base : List (String × List Int) :=
  [("I", [0, 4, 7]),
   ("II", [2, 6, 9]),
   ("III", [4, 8, 11]),
   ("IV", [5, 9, 12]),
   ("V", [7, 11, 14]),
   ("VI", [9, 13, 16]),
   ("VII", [11, 15, 18]),
   ("ii0", [1, 4, 7, 9]),
   ("vii0", [0, 4, 7, 10])]

/-- `major_chord_to_minor` (src/foo.py lines 55-58): copies the major entry
(`minor = list(triad_notes[symbol])`) and lowers its second element by one
(`minor[1] -= 1`).  `none` models a `KeyError` (unknown symbol) or an
`IndexError` (entry shorter than two elements); at the time the derivations
run, only the base table entries exist. -/
def major_chord_to_minor (symbol : String) : Option (List Int) :=
  (dictGet triad_notes_base symbol).bind fun l =>
    match l with
    | a :: b :: rest => some (a :: (b - 1) :: rest)
    | _ => none

/-- One derived dictionary entry `triad_notes[minorSym] = major_chord_to_minor(majorSym)`
(src/foo.py lines 75-81); an entry whose derivation fails is absent. -/
def minor_entry (minorSym majorSym : String) : List (String × List Int) :=
  match major_chord_to_minor majorSym with
  | some l => [(minorSym, l)]
  | none => []

/-- The full triad table after the module-load derivations
(src/foo.py lines 64-81). -/
def triad_notes : List (String × List Int) :=
  triad_notes_base ++
    minor_entry "i" "I" ++ minor_entry "ii" "II" ++ minor_entry "iii" "III" ++
    minor_entry "iv" "IV" ++ minor_entry "v" "V" ++ minor_entry "vi" "VI" ++
    minor_entry "vii" "VII"

/-- Is `c` an ASCII decimal digit (the `\d` class of the source regex)? -/
def isDigitChar (c : Char) : Bool := '0' ≤ c && c ≤ '9'

/-- Numeric value of a digit character, used to model Python's `int(octave)`. -/
def digitVal (c : Char) : Nat := c.toNat - 48

/-- Value of a decimal digit string, modelling Python's `int(octave)`. -/
def digitsVal (ds : List Char) : Nat :=
  ds.foldl (fun a c => a * 10 + digitVal c) 0

/-- The regex match `^([A-Z][b#]?)(\d+)$` applied by `note_number` after the
leading character has been uppercased (src/foo.py line 129).  Returns the
captured name and octave-digit groups.  `indexError` models the uncaught
`IndexError` of `note[0]` on an empty string; `invalidNoteName` models the
`Exception('Bad note input ...')` raised when the regex does not match.
The regex never needs backtracking here: a character in `[b#]` is never a
digit, so the split below is exact. -/
def parse_note_chars (l : List Char) : Except NoteError (String × List Char) :=
  match l with
  | [] => .error .indexError
  | c0 :: rest =>
    let c := c0.toUpper
    let (name, ds) :=
      match rest with
      | a :: rest1 => if a = '#' || a = 'b' then ([c, a], rest1) else ([c], rest)
      | [] => ([c], ([] : List Char))
    if ('A' ≤ c && c ≤ 'Z') && !ds.isEmpty && ds.all isDigitChar then
      .ok (String.mk name, ds)
    else
      .error .invalidNoteName

/-- Note-name parsing over a `String` (the spec's `parse_note_name`). -/
def parse_note_name (s : String) : Except NoteError (String × List Char) :=
  parse_note_chars s.data

/-- Python's `l.index(a)` on a list of strings: index of the first occurrence,
`none` modelling the `ValueError` raised when `a` is absent. -/
def listIndex (l : List String) (a : String) : Option Nat :=
  match l with
  | [] => none
  | x :: xs => if x == a then some 0 else (listIndex xs a).map (· + 1)

/-- The arithmetic part of `note_number` (src/foo.py lines 133-138): remap
enharmonic spellings, look the name up in `keys_in_octave` (a failing
`list.index` raises `ValueError`), and combine with the octave using the fixed
base offset of two octaves. -/
def note_number_core (name : String) (ds : List Char) : Except NoteError Int :=
  let name :=
    match dictGet note_remap name with
    | some n => n
    | none => name
  match listIndex keys_in_octave name with
  | some i => .ok (((digitsVal ds : Int) + 2) * 12 + (i : Int))
  | none => .error .valueError

/-- `note_number` (src/foo.py lines 124-138): MIDI note number for a note name
such as `"C#4"`. -/
def note_number (s : String) : Except NoteError Int :=
  match parse_note_name s with
  | .ok (name, ds) => note_number_core name ds
  | .error e => .error e

/-- Decimal digit character for a value below ten (the last character Python's
`str` emits for `n` is `digitChar (n % 10)`). -/
def digitChar (n : Nat) : Char :=
  match n with
  | 0 => '0' | 1 => '1' | 2 => '2' | 3 => '3' | 4 => '4'
  | 5 => '5' | 6 => '6' | 7 => '7' | 8 => '8' | _ => '9'

/-- Decimal digit list of `n`, most significant digit first: the Lean model of
Python's `str(n)` for a non-negative integer. -/
def natDigits (n : Nat) : List Char :=
  if _h : n < 10 then [digitChar n]
  else natDigits (n / 10) ++ [digitChar (n % 10)]
termination_by n
decreasing_by
  exact Nat.div_lt_self (by omega) (by omega)

/-- String form of `natDigits`: the model of Python's `str(n)`. -/
def natToDigitString (n : Nat) : String := String.mk (natDigits n)

/-- Specification-side predicate: does `s` denote a valid note name, that is,
does it match `<letter>[#|b]<digits>` after uppercasing the first character,
with the (enharmonically remapped) pitch-class name among the standard keys?
Used to state what `note_number` accepts. -/
def validNoteName (s : String) : Bool :=
  match parse_note_name s with
  | .ok (name, _) =>
    decide ((match dictGet note_remap name with
             | some n => n
             | none => name) ∈ keys_in_octave)
  | .error _ => false

/-- `pick_next_chord` (src/foo.py lines 170-176): given the current chord and a
transition graph, picks `transitions[seed][randint(0, len(transitions[seed])-1)]`.
The draw outcome is `r % len`; `none` models the `KeyError` on an unknown seed
or the `ValueError` of `randint(0, -1)` on an empty transition list. -/
def pick_next_chord (seed : String) (transitions : List (String × List String))
    (r : Nat) : Option String :=
  match dictGet transitions seed with
  | some dests => dests[r % dests.length]?
  | none => none

/-- The keys of a transition graph, as used by
`transitions.keys()[randint(0, len(transitions.keys())-1)]`. -/
def graphKeys (g : List (String × List String)) : List String := g.map (fun p => p.1)

/-- The `for _ in range(bars - 1)` loop body of `generate_progression`
(src/foo.py lines 188-189): append `pick_next_chord(progression[-1], transitions)`
`n` times, drawing from the random stream at counters `k, k+1, ...`. -/
def extend_progression (transitions : List (String × List String)) (rnd : Nat → Nat) :
    Nat → Nat → String → Option (List String)
  | 0, _, _ => some []
  | n + 1, k, last =>
    match pick_next_chord last transitions (rnd k) with
    | none => none
    | some next =>
      match extend_progression transitions rnd n (k + 1) next with
      | none => none
      | some rest => some (next :: rest)

/-- The graph chosen by `generate_progression`'s
`transitions = transitions_major if major else transitions_minor`
(src/foo.py line 186). -/
def song_transitions (major : Bool) : List (String × List String) :=
  if major then transitions_major else transitions_minor

/-- The body of `generate_progression` (src/foo.py lines 186-190), generic in
the chosen transition graph.  `bars` is an `Int` because the source performs
no validation and `range(bars - 1)` is simply empty for `bars ≤ 1`.  The first
chord is seeded (`pick_next_chord(seed, ...)`) when `seed` is a truthy
(non-empty) string — Python's `if seed` — otherwise drawn uniformly from the
graph's keys. -/
def generate_progression_with (transitions : List (String × List String))
    (bars : Int) (seed : Option String) (rnd : Nat → Nat) : Option (List String) :=
  let first? : Option String :=
    match seed with
    | some s =>
      if s = "" then (graphKeys transitions)[rnd 0 % (graphKeys transitions).length]?
      else pick_next_chord s transitions (rnd 0)
    | none => (graphKeys transitions)[rnd 0 % (graphKeys transitions).length]?
  match first? with
  | none => none
  | some first =>
    match extend_progression transitions rnd (bars - 1).toNat 1 first with
    | none => none
    | some rest => some (first :: rest)

/-- `generate_progression` (src/foo.py lines 178-190); note the source has no
`bars ≥ 1` check and raises nothing for `bars < 1`. -/
def generate_progression (bars : Int) (major : Bool) (seed : Option String)
    (rnd : Nat → Nat) : Option (List String) :=
  generate_progression_with (song_transitions major) bars seed rnd

/-- `generate_scale` (src/foo.py lines 140-149): MIDI note numbers of the
major/minor scale on `name` in `octave`. -/
def generate_scale (name : String) (octave : Nat) (major : Bool) :
    Except NoteError (List Int) :=
  let scale := if major then major_scale_progression else minor_scale_progression
  match note_number (name ++ natToDigitString octave) with
  | .ok base_note => .ok (scale.map (fun x => base_note + x))
  | .error e => .error e

/-- `get_chord` (src/foo.py lines 151-158): the triad offsets of `symbol` each
added to `base_note`; `none` models the `KeyError` on an unknown symbol. -/
def get_chord (symbol : String) (base_note : Int) : Option (List Int) :=
  match dictGet triad_notes symbol with
  | some offs => some (offs.map (fun x => x + base_note))
  | none => none

/-- One grid slot of the melody output: `some (pitch, velocity, duration)` for
a note onset (duration in eighth-of-a-measure units, so the source's `0.125`
is `1` and its `1.5` is `12`), `none` for the `None` continuation/rest slots
the source appends. -/
abbrev MelodySlot := Option (Int × Nat × Nat)

/-- The candidate note lengths with their sampling weights
(src/foo.py line 210):
`[(0.125, 2), (0.25, 4), (0.375, 2), (0.5, 2), (0.75, 1), (1.0, 1), (1.25, 0.5), (1.5, 0.25)]`,
durations scaled by 8 into exact eighth-of-a-measure units, weights kept as
exact rationals.  Every weight is positive, so every length that survives the
feasibility filter can be drawn by `numpy.random.choice`; the draw is
therefore modelled as an arbitrary index into the filtered list. -/
def note_vals : List (Nat × ℚ) :=
  [(1, 2), (2, 4), (3, 2), (4, 2), (6, 1), (8, 1), (10, 0.5), (12, 0.25)]

/-- The `while time_used < i + 1` loop of `generate_melody`
(src/foo.py lines 209-231), filling the bar of chord number `ip1 - 1` (the
source's `i + 1` is `ip1`).  `L` is `len(progression)`, `t` is `time_used` in
eighth-of-a-measure units, `k` the random-draw counter, `ct`/`nct` the chord
and non-chord tone pools, `last` the source's `last_played`.
Per iteration the source draws a feasible note length (weighted, but every
feasible length has positive weight), picks the non-chord pool exactly when
`int(randint(0, 10)/10.0)` is 1 (i.e. the draw is 10), then draws a pitch from
the pool (distance-weighted; every pool pitch is within 30 < 36 semitones of
`last_played`, so every weight is positive and the support is the whole pool),
appends the note event followed by `int(note_val/0.125) - 1` `None` slots, and
advances `time_used`.  `none` models a raised exception (empty feasible set or
empty pool). -/
def fillChord (rnd : Nat → Nat) (L ip1 : Nat) (ct nct : List Int) (t k : Nat)
    (last : Option Int) : Option (List MelodySlot × Nat × Nat × Option Int) :=
  if _ht : t < 8 * ip1 then
    let possible := (note_vals.filter (fun dp => dp.1 + t ≤ 8 * L)).map (fun dp => dp.1)
    match _hd : possible[rnd k % possible.length]? with
    | none => none
    | some d =>
      let pool := if rnd (k + 1) % 11 == 10 then nct else ct
      match pool[rnd (k + 2) % pool.length]? with
      | none => none
      | some pitch =>
        match fillChord rnd L ip1 ct nct (t + d) (k + 3) (some pitch) with
        | none => none
        | some (rest, tF, kF, lastF) =>
          some ((some (pitch, 80, d) :: List.replicate (d - 1) none) ++ rest,
                tF, kF, lastF)
  else
    some ([], t, k, last)
termination_by 8 * ip1 - t
decreasing_by
  have hmem : d ∈ (note_vals.filter (fun dp => dp.1 + t ≤ 8 * L)).map (fun dp => dp.1) :=
    List.getElem?_mem _hd
  have hpos : 1 ≤ d := by
    rcases List.mem_map.mp hmem with ⟨dp, hdp, rfl⟩
    have : dp ∈ note_vals := (List.mem_filter.mp hdp).1
    revert this
    simp only [note_vals, List.mem_cons, List.not_mem_nil, or_false]
    rintro (rfl | rfl | rfl | rfl | rfl | rfl | rfl | rfl) <;> simp
  omega

/-- The `for i, chord in enumerate(progression)` loop of `generate_melody`
(src/foo.py lines 200-231), processing the suffix of the progression that
starts at chord index `i`.  Per chord the source rebuilds `all_tones`,
`chord_tones` (the triad plus its octave doubling) and `non_chord_tones`
(the scale tones except the last, minus the chord tones, plus the octave
doubling of that difference), resets `last_played` to `None`, and runs the
bar-filling loop.  Python's `set` difference is modelled as an order-preserving
filter; the source list has no duplicates and only membership and emptiness of
the pool matter to the claims.  `none` models any raised exception. -/
def melodyChords (rnd : Nat → Nat) (key : String) (major : Bool) (L : Nat) :
    List String → Nat → Nat → Nat → Option (List MelodySlot × Nat × Nat)
  | [], _, t, k => some ([], t, k)
  | chord :: rest, i, t, k =>
    match generate_scale key 2 major with
    | .error _ => none
    | .ok all_tones =>
      match note_number (key ++ "2") with
      | .error _ => none
      | .ok base =>
        match get_chord chord base with
        | none => none
        | some ct0 =>
          let chord_tones := ct0 ++ ct0.map (fun x => x + 12)
          let nct0 := all_tones.dropLast.filter (fun x => !decide (x ∈ chord_tones))
          let non_chord_tones := nct0 ++ nct0.map (fun x => x + 12)
          match fillChord rnd L (i + 1) chord_tones non_chord_tones t k none with
          | none => none
          | some (slots, t1, k1, _) =>
            match melodyChords rnd key major L rest (i + 1) t1 k1 with
            | none => none
            | some (slots1, t2, k2) => some (slots ++ slots1, t2, k2)

/-- The `for _ in range(progression_repeats)` loop of `generate_melody`
(src/foo.py lines 198-231): each repeat resets `time_used` to `0` and the
chord index to `0` and appends its slots to the output; the random-draw
counter threads through. -/
def melodyRepeats (rnd : Nat → Nat) (key : String) (major : Bool)
    (prog : List String) : Nat → Nat → Option (List MelodySlot × Nat)
  | 0, k => some ([], k)
  | r + 1, k =>
    match melodyChords rnd key major prog.length prog 0 0 k with
    | none => none
    | some (slots, _, k1) =>
      match melodyRepeats rnd key major prog r k1 with
      | none => none
      | some (slots1, k2) => some (slots ++ slots1, k2)

/-- `generate_melody` (src/foo.py lines 192-233).  The final length guard
models the source's `assert len(out) == 8 * len(progression) * progression_repeats`. -/
def generate_melody (key : String) (progression : List String)
    (progression_repeats : Nat) (major : Bool) (rnd : Nat → Nat) :
    Option (List MelodySlot) :=
  match melodyRepeats rnd key major progression progression_repeats 0 with
  | none => none
  | some (out, _) =>
    if out.length = 8 * progression.length * progression_repeats then some out
    else none

/-- The source's `melody_repeats = 2*int(randint(3, 6)/3.0)` (src/foo.py
lines 276 and 302): the draw from `{3,4,5,6}` is modelled as `3 + r % 4`;
`int(v/3.0)` truncates to `v / 3` (exactly 1 for 3,4,5 and 2 for 6). -/
def melody_repeats_draw (r : Nat) : Nat := 2 * ((3 + r % 4) / 3)

/-- The chorus-melody construction of the main program (src/foo.py
lines 302-305): `chorus_melody = generate_melody(key, verse_progression,
melody_repeats, major)`, doubled when `melody_repeats == 2`.  The chorus
progression (line 281) is in scope at that point and is therefore a parameter
here, but the source passes `verse_progression` to `generate_melody`. -/
def chorus_melody_of (key : String) (verse_progression : List String)
    (_chorus_progression : List String) (major : Bool) (rRepeat : Nat)
    (rnd : Nat → Nat) : Option (List MelodySlot) :=
  let melody_repeats := melody_repeats_draw rRepeat
  match generate_melody key verse_progression melody_repeats major rnd with
  | none => none
  | some m => some (if melody_repeats = 2 then m ++ m else m)

/-- The swing selection of a scheduled event's duration in the playback loops
(src/foo.py lines 332-335): with swing on, an event whose nominal duration is
exactly `0.125` of a measure is assigned the constant `0.167` on even grid
steps and `0.083` on odd ones; all other durations are untouched.  This
definition performs no arithmetic: it models the choice between the source's
decimal constants, read as the exact values they denote.  (`0.125` is exactly
representable in binary64, so the source's float comparison `== 0.125` agrees
with exact equality on the stored event durations.)  The floating-point
wall-clock computation built on this choice is modelled separately below by
`play_seconds_fl`. -/
def swing_duration (swing : Bool) (i : Nat) (nominal : ℚ) : ℚ :=
  if swing ∧ nominal = 0.125 then (if i % 2 = 0 then 0.167 else 0.083) else nominal

/-- The swing selection of the scheduler's inter-step sleep fraction
(src/foo.py line 337): `(0.667 if i%2==0 else 0.333) if swing else 0.5`,
again pure selection between the source's decimal constants with no
arithmetic; the floating-point product with `seconds_per_beat` is modelled
by `step_sleep_fl` below. -/
def step_sleep_fraction (swing : Bool) (i : Nat) : ℚ :=
  if swing then (if i % 2 = 0 then 0.667 else 0.333) else 0.5

/-- Bit length of a natural number (`bitLen n = k` when `2^(k-1) ≤ n < 2^k`,
`bitLen 0 = 0`), written with explicit fuel so that the kernel can evaluate
it; 400 bits of fuel covers every quantity the playback model produces. -/
def bitLenAux : Nat → Nat → Nat
  | 0, _ => 0
  | fuel + 1, n => if n = 0 then 0 else bitLenAux fuel (n / 2) + 1

/-- Bit length with enough fuel for this file's quantities. -/
def bitLen (n : Nat) : Nat := bitLenAux 400 n

/-- A non-negative IEEE-754 binary64 value represented exactly as a dyadic
rational: `(m, s)` denotes `m / 2^s`.  All playback quantities are positive,
so this suffices; the pair is kept unnormalized and compared through its
value. -/
abbrev Dyadic := Nat × Nat

/-- The exact rational value of a dyadic pair.  (`mkRat` rather than `ℚ`
division so that the kernel can evaluate concrete comparisons.) -/
def dyadicVal (x : Dyadic) : ℚ := mkRat (x.1 : Int) (2 ^ x.2)

/-- Value equality of two dyadic pairs, by cross multiplication: the model of
the source's float equality test `==`. -/
def dyadicEq (x y : Dyadic) : Bool := x.1 * 2 ^ y.2 == y.1 * 2 ^ x.2

/-- The IEEE-754 binary64 value nearest to the non-negative rational `a / b`
(round to nearest, ties to even), as a dyadic pair.
`bitLen ⌊(a/b)·2^100⌋` is `⌊log2 (a/b)⌋ + 101`, so the scale that brings
`a / b` to a 53-bit significand is `2^(153 - bitLen)` (or its reciprocal);
the significand itself comes from a half-to-even division.  Valid in the
normal range (roughly `2^-100` to `2^100`), far wider than anything the
playback arithmetic produces; overflow and subnormals are not modelled. -/
def roundDyadic (a b : Nat) : Dyadic :=
  let blen := bitLen (a * 2 ^ 100 / b)
  if blen ≤ 153 then
    let s := 153 - blen
    let num := a * 2 ^ s
    let q0 := num / b
    let r := num % b
    (q0 + (if b < 2 * r then 1 else if 2 * r < b then 0 else q0 % 2), s)
  else
    let s := blen - 153
    let den := b * 2 ^ s
    let q0 := a / den
    let r := a % den
    ((q0 + (if den < 2 * r then 1 else if 2 * r < den then 0 else q0 % 2)) * 2 ^ s, 0)

/-- The double a non-negative Python decimal literal `a/b` stores:
`floatLit 167 1000` is the binary64 nearest `0.167`. -/
def floatLit (a b : Nat) : Dyadic := roundDyadic a b

/-- One binary64 multiplication: the exact product of the dyadics, rounded. -/
def mulDouble (x y : Dyadic) : Dyadic := roundDyadic (x.1 * y.1) (2 ^ (x.2 + y.2))

/-- One binary64 addition: the exact sum of the dyadics, rounded. -/
def addDouble (x y : Dyadic) : Dyadic :=
  roundDyadic (x.1 * 2 ^ y.2 + y.1 * 2 ^ x.2) (2 ^ (x.2 + y.2))

/-- The exact (unrounded) sum of two dyadics: used to state what the
wall-clock durations of a pair of steps add up to in real time, which no
float operation of the source ever computes. -/
def addExact (x y : Dyadic) : Dyadic := (x.1 * 2 ^ y.2 + y.1 * 2 ^ x.2, x.2 + y.2)

/-- `seconds_per_beat = 60.0/tempo` (src/foo.py line 239) in double
precision: both operands are exactly representable, so this is one correctly
rounded division of the exact quotient `60 / tempo`. -/
def seconds_per_beat_fl (tempo : Nat) : Dyadic := roundDyadic 60 tempo

/-- The swing selection over the stored doubles: the branch taken is as in
`swing_duration` (the source compares the event's stored duration with
`0.125`, which is exactly representable), but the constants assigned are the
binary64 values the source's literals `0.167`/`0.083` store. -/
def swing_duration_fl (swing : Bool) (i : Nat) (nominal : Dyadic) : Dyadic :=
  if swing && dyadicEq nominal (floatLit 125 1000) then
    (if i % 2 = 0 then floatLit 167 1000 else floatLit 83 1000)
  else nominal

/-- Wall-clock seconds an event plays for (src/foo.py line 336):
`duration * seconds_per_beat * 4`, evaluated left to right as two binary64
multiplications on the stored doubles. -/
def play_seconds_fl (swing : Bool) (i : Nat) (nominal spb : Dyadic) : Dyadic :=
  mulDouble (mulDouble (swing_duration_fl swing i nominal) spb) (4, 0)

/-- The scheduler's inter-step sleep (src/foo.py line 337):
`((0.667 if i%2==0 else 0.333) if swing else 0.5) * seconds_per_beat` as one
binary64 multiplication on the stored doubles. -/
def step_sleep_fl (swing : Bool) (i : Nat) (spb : Dyadic) : Dyadic :=
  mulDouble
    (if swing then (if i % 2 = 0 then floatLit 667 1000 else floatLit 333 1000)
     else floatLit 5 10) spb

/-- One step of the harmonic random walk: `b` is a legal successor of `a` in
graph `g`. -/
def chordStep (g : List (String × List String)) (a b : String) : Prop :=
  b ∈ (dictGet g a).getD []

/-- Well-formedness of a transition graph: every key has a non-empty
destination list and every destination is itself a key. -/
def graphWF (g : List (String × List String)) : Bool :=
  g.all (fun p => !p.2.isEmpty && p.2.all (fun d => (dictGet g d).isSome))

theorem isDigitChar_digitChar (d : Nat) (h : d < 10) :
    isDigitChar (digitChar d) = true := by
  interval_cases d <;> rfl

theorem digitVal_digitChar (d : Nat) (h : d < 10) : digitVal (digitChar d) = d := by
  interval_cases d <;> rfl

theorem natDigits_ne_nil (n : Nat) : natDigits n ≠ [] := by
  rw [natDigits]
  split
  · simp
  · simp

theorem natDigits_all_digits (n : Nat) : (natDigits n).all isDigitChar = true := by
  induction n using Nat.strong_induction_on with
  | _ n ih =>
    rw [natDigits]
    split
    · rename_i h
      simp [isDigitChar_digitChar _ h]
    · rename_i h
      have h1 := ih (n / 10) (Nat.div_lt_self (by omega) (by omega))
      simp only [List.all_append, h1, Bool.true_and, List.all_cons, List.all_nil,
        Bool.and_true]
      exact isDigitChar_digitChar _ (Nat.mod_lt _ (by omega))

theorem digitsVal_append_digit (ds : List Char) (c : Char) :
    digitsVal (ds ++ [c]) = digitsVal ds * 10 + digitVal c := by
  simp [digitsVal, List.foldl_append]

theorem digitsVal_natDigits (n : Nat) : digitsVal (natDigits n) = n := by
  induction n using Nat.strong_induction_on with
  | _ n ih =>
    rw [natDigits]
    split
    · rename_i h
      simp [digitsVal, digitVal_digitChar _ h]
    · rename_i h
      rw [digitsVal_append_digit, ih (n / 10) (Nat.div_lt_self (by omega) (by omega)),
        digitVal_digitChar _ (Nat.mod_lt _ (by omega))]
      omega

theorem digit_not_sharp_flat {a : Char} (h : isDigitChar a = true) :
    ¬(a = '#' || a = 'b') = true := by
  intro hab
  rcases Bool.or_eq_true_iff.mp hab with h1 | h1
  · rw [decide_eq_true_iff] at h1
    subst h1
    exact absurd h (by decide)
  · rw [decide_eq_true_iff] at h1
    subst h1
    exact absurd h (by decide)

/-- Parsing a single uppercase letter followed by a digit string hits the
no-accidental branch of the regex. -/
theorem note_number_letter_digits (c : Char) (hA : 'A' ≤ c) (hZ : c ≤ 'Z')
    (hu : c.toUpper = c) (ds : List Char) (hne : ds ≠ [])
    (hdig : ds.all isDigitChar = true) :
    note_number (String.mk (c :: ds)) = note_number_core (String.mk [c]) ds := by
  cases ds with
  | nil => exact absurd rfl hne
  | cons a rest =>
    have hd : isDigitChar a = true := by
      simp only [List.all_cons, Bool.and_eq_true] at hdig
      exact hdig.1
    simp [note_number, parse_note_name, parse_note_chars, hu,
      digit_not_sharp_flat hd, hA, hZ, hdig, hd]

/-- Parsing an uppercase letter plus `#`/`b` accidental followed by a digit
string hits the accidental branch of the regex. -/
theorem note_number_letter_acc_digits (c a : Char) (hA : 'A' ≤ c) (hZ : c ≤ 'Z')
    (hu : c.toUpper = c) (ha : a = '#' ∨ a = 'b') (ds : List Char) (hne : ds ≠ [])
    (hdig : ds.all isDigitChar = true) :
    note_number (String.mk (c :: a :: ds)) = note_number_core (String.mk [c, a]) ds := by
  have hne' : ds.isEmpty = false := by
    cases ds with
    | nil => exact absurd rfl hne
    | cons x xs => rfl
  have hab : (a = '#' || a = 'b') = true := by
    rcases ha with h | h <;> simp [h]
  simp [note_number, parse_note_name, parse_note_chars, hu, hab, hA, hZ, hdig, hne']

/-- Claim C3: each minor chord symbol derived at module load holds the major
entry with its second listed interval lowered by exactly one semitone
(for example `triad_notes["i"] = [0, 3, 7]`), and after all derivations every
major entry of the shared table still holds its original offsets: the
derivation reads from the major table without mutating it. -/
theorem c3_minor_triads_derived :
    dictGet triad_notes "i" = major_chord_to_minor "I" ∧
    dictGet triad_notes "ii" = major_chord_to_minor "II" ∧
    dictGet triad_notes "iii" = major_chord_to_minor "III" ∧
    dictGet triad_notes "iv" = major_chord_to_minor "IV" ∧
    dictGet triad_notes "v" = major_chord_to_minor "V" ∧
    dictGet triad_notes "vi" = major_chord_to_minor "VI" ∧
    dictGet triad_notes "vii" = major_chord_to_minor "VII" ∧
    dictGet triad_notes "i" = some [0, 3, 7] ∧
    dictGet triad_notes "ii" = some [2, 5, 9] ∧
    dictGet triad_notes "iii" = some [4, 7, 11] ∧
    dictGet triad_notes "iv" = some [5, 8, 12] ∧
    dictGet triad_notes "v" = some [7, 10, 14] ∧
    dictGet triad_notes "vi" = some [9, 12, 16] ∧
    dictGet triad_notes "vii" = some [11, 14, 18] ∧
    dictGet triad_notes "I" = some [0, 4, 7] ∧
    dictGet triad_notes "II" = some [2, 6, 9] ∧
    dictGet triad_notes "III" = some [4, 8, 11] ∧
    dictGet triad_notes "IV" = some [5, 9, 12] ∧
    dictGet triad_notes "V" = some [7, 11, 14] ∧
    dictGet triad_notes "VI" = some [9, 13, 16] ∧
    dictGet triad_notes "VII" = some [11, 15, 18] ∧
    dictGet triad_notes "ii0" = some [1, 4, 7, 9] ∧
    dictGet triad_notes "vii0" = some [0, 4, 7, 10] := by
  decide

theorem note_number_key_digits (c : String) (hc : c ∈ keys_in_octave)
    (ds : List Char) (hne : ds ≠ []) (hdig : ds.all isDigitChar = true) :
    note_number (c ++ String.mk ds)
      = .ok (((digitsVal ds : Int) + 2) * 12 + (keys_in_octave.indexOf c : Int)) := by
  simp only [keys_in_octave, List.mem_append, List.mem_cons, List.not_mem_nil, or_false] at hc
  rcases hc with (rfl | rfl | rfl | rfl | rfl | rfl) | (rfl | rfl | rfl | rfl | rfl | rfl)
  · exact (note_number_letter_digits 'C' (by decide) (by decide) (by decide) ds hne hdig).trans rfl
  · exact (note_number_letter_acc_digits 'C' '#' (by decide) (by decide) (by decide) (Or.inl rfl) ds hne hdig).trans rfl
  · exact (note_number_letter_digits 'D' (by decide) (by decide) (by decide) ds hne hdig).trans rfl
  · exact (note_number_letter_acc_digits 'D' '#' (by decide) (by decide) (by decide) (Or.inl rfl) ds hne hdig).trans rfl
  · exact (note_number_letter_digits 'E' (by decide) (by decide) (by decide) ds hne hdig).trans rfl
  · exact (note_number_letter_digits 'F' (by decide) (by decide) (by decide) ds hne hdig).trans rfl
  · exact (note_number_letter_acc_digits 'F' '#' (by decide) (by decide) (by decide) (Or.inl rfl) ds hne hdig).trans rfl
  · exact (note_number_letter_digits 'G' (by decide) (by decide) (by decide) ds hne hdig).trans rfl
  · exact (note_number_letter_acc_digits 'G' '#' (by decide) (by decide) (by decide) (Or.inl rfl) ds hne hdig).trans rfl
  · exact (note_number_letter_digits 'A' (by decide) (by decide) (by decide) ds hne hdig).trans rfl
  · exact (note_number_letter_acc_digits 'A' '#' (by decide) (by decide) (by decide) (Or.inl rfl) ds hne hdig).trans rfl
  · exact (note_number_letter_digits 'B' (by decide) (by decide) (by decide) ds hne hdig).trans rfl

/-- Claim C4: for every canonical pitch-class name and octave `o`,
`note_number` returns `(o + 2) * 12 + index(c)`; the pitch class (the value
mod 12) is the index of `c` in the canonical order, and the value is
octave-consistent: one octave up adds exactly 12. -/
theorem c4_note_number_roundtrip (c : String) (hc : c ∈ keys_in_octave) (o : Nat) :
    note_number (c ++ natToDigitString o)
      = .ok (((o : Int) + 2) * 12 + (keys_in_octave.indexOf c : Int)) ∧
    (((o : Int) + 2) * 12 + (keys_in_octave.indexOf c : Int)) % 12
      = (keys_in_octave.indexOf c : Int) ∧
    note_number (c ++ natToDigitString (o + 1))
      = .ok ((((o : Int) + 2) * 12 + (keys_in_octave.indexOf c : Int)) + 12) := by
  have hidx : keys_in_octave.indexOf c < 12 := by
    simp only [keys_in_octave, List.mem_append, List.mem_cons, List.not_mem_nil, or_false] at hc
    rcases hc with (rfl | rfl | rfl | rfl | rfl | rfl) | (rfl | rfl | rfl | rfl | rfl | rfl) <;> decide
  have h1 := note_number_key_digits c hc (natDigits o) (natDigits_ne_nil o)
    (natDigits_all_digits o)
  have h2 := note_number_key_digits c hc (natDigits (o + 1)) (natDigits_ne_nil (o + 1))
    (natDigits_all_digits (o + 1))
  rw [digitsVal_natDigits] at h1 h2
  have heq : (((o + 1 : Nat) : Int) + 2) * 12 + (keys_in_octave.indexOf c : Int)
      = ((o : Int) + 2) * 12 + (keys_in_octave.indexOf c : Int) + 12 := by
    push_cast
    ring
  exact ⟨h1, by omega, h2.trans (by rw [heq])⟩

theorem c4_witness :
    note_number ("C" ++ natToDigitString 4)
      = .ok (((4 : Int) + 2) * 12 + (keys_in_octave.indexOf "C" : Int)) ∧
    (((4 : Int) + 2) * 12 + (keys_in_octave.indexOf "C" : Int)) % 12
      = (keys_in_octave.indexOf "C" : Int) ∧
    note_number ("C" ++ natToDigitString (4 + 1))
      = .ok ((((4 : Int) + 2) * 12 + (keys_in_octave.indexOf "C" : Int)) + 12) :=
  c4_note_number_roundtrip "C" (by decide) 4

/-- Claim C10: the enharmonic remap substitutes the pitch-class spelling only
and leaves the octave digits unchanged, so for every octave digit string,
`B#` of an octave equals `C` of the same octave (11 semitones below that
octave's `B`) and `Cb` equals `B` of the same octave (11 semitones above that
octave's `C`). -/
theorem c10_enharmonic_octave (ds : List Char) (hne : ds ≠ [])
    (hdig : ds.all isDigitChar = true) :
    note_number ("B#" ++ String.mk ds) = note_number ("C" ++ String.mk ds) ∧
    note_number ("Cb" ++ String.mk ds) = note_number ("B" ++ String.mk ds) ∧
    note_number ("B#" ++ String.mk ds) = .ok (((digitsVal ds : Int) + 2) * 12 + 0) ∧
    note_number ("B" ++ String.mk ds) = .ok (((digitsVal ds : Int) + 2) * 12 + 11) := by
  have hBs : note_number ("B#" ++ String.mk ds)
      = .ok (((digitsVal ds : Int) + 2) * 12 + 0) :=
    (note_number_letter_acc_digits 'B' '#' (by decide) (by decide) (by decide)
      (Or.inl rfl) ds hne hdig).trans rfl
  have hC : note_number ("C" ++ String.mk ds)
      = .ok (((digitsVal ds : Int) + 2) * 12 + 0) :=
    (note_number_letter_digits 'C' (by decide) (by decide) (by decide) ds hne hdig).trans rfl
  have hCb : note_number ("Cb" ++ String.mk ds)
      = .ok (((digitsVal ds : Int) + 2) * 12 + 11) :=
    (note_number_letter_acc_digits 'C' 'b' (by decide) (by decide) (by decide)
      (Or.inr rfl) ds hne hdig).trans rfl
  have hB : note_number ("B" ++ String.mk ds)
      = .ok (((digitsVal ds : Int) + 2) * 12 + 11) :=
    (note_number_letter_digits 'B' (by decide) (by decide) (by decide) ds hne hdig).trans rfl
  exact ⟨hBs.trans hC.symm, hCb.trans hB.symm, hBs, hB⟩

theorem c10_witness :
    note_number ("B#" ++ String.mk ['4']) = note_number ("C" ++ String.mk ['4']) ∧
    note_number ("Cb" ++ String.mk ['4']) = note_number ("B" ++ String.mk ['4']) ∧
    note_number ("B#" ++ String.mk ['4']) = .ok (((digitsVal ['4'] : Int) + 2) * 12 + 0) ∧
    note_number ("B" ++ String.mk ['4']) = .ok (((digitsVal ['4'] : Int) + 2) * 12 + 11) :=
  c10_enharmonic_octave ['4'] (by decide) (by decide)

theorem listIndex_eq_none {l : List String} {a : String} (h : a ∉ l) :
    listIndex l a = none := by
  induction l with
  | nil => rfl
  | cons x xs ih =>
    simp only [List.mem_cons, not_or] at h
    have hx : (x == a) = false := beq_eq_false_iff_ne.mpr (Ne.symm h.1)
    simp [listIndex, hx, ih h.2]

/-- Claim C6 counterexample: `note_number("H4")` does not fail with the
malformed-note-string rejection (`invalidNoteName`); it escapes with the
`ValueError` of the failing `keys_in_octave.index` lookup instead. -/
theorem c6_counterexample_h4 :
    note_number "H4" = .error .valueError ∧
    note_number "H4" ≠ .error .invalidNoteName := by
  decide

/-- Claim C6 (amended): `note_number` never silently returns a number for an
input that does not denote a valid note, and inputs that fail the
`<letter>[#|b]<digits>` shape match do fail with the malformed-note rejection;
but a shape-valid input with an unknown pitch-class letter, such as `"H4"`,
fails with the uncaught `ValueError` of the pitch-class lookup rather than
with `invalidNoteName`. -/
theorem c6_note_number_failure_modes :
    (∀ s : String, validNoteName s = false → (note_number s).isOk = false) ∧
    (∀ s : String, parse_note_name s = .error .invalidNoteName →
      note_number s = .error .invalidNoteName) ∧
    note_number "H4" = .error .valueError := by
  refine ⟨?_, ?_, by decide⟩
  · intro s h
    cases hp : parse_note_name s with
    | error e => simp [note_number, hp, Except.isOk, Except.toBool]
    | ok pair =>
      obtain ⟨name, ds⟩ := pair
      rw [validNoteName, hp] at h
      have h' : (match dictGet note_remap name with
          | some n => n
          | none => name) ∉ keys_in_octave := of_decide_eq_false h
      simp only [note_number, hp, note_number_core]
      rw [listIndex_eq_none h']
      rfl
  · intro s h
    simp [note_number, h]

theorem graphWF_major : graphWF transitions_major = true := by decide

theorem graphWF_minor : graphWF transitions_minor = true := by decide

theorem dictGet_mem {α : Type} {d : List (String × α)} {s : String} {v : α}
    (h : dictGet d s = some v) : (s, v) ∈ d := by
  cases hf : d.find? (fun p => p.1 == s) with
  | none => simp [dictGet, hf] at h
  | some q =>
    have hq : q ∈ d := List.mem_of_find?_eq_some hf
    have hpred := List.find?_some hf
    have h1 : q.1 = s := by simpa using hpred
    have h2 : q.2 = v := by simpa [dictGet, hf] using h
    have : q = (s, v) := by
      cases q
      simp_all
    rwa [this] at hq

theorem pick_next_chord_spec {g : List (String × List String)}
    (hwf : graphWF g = true) {s : String} {dests : List String}
    (hs : dictGet g s = some dests) (r : Nat) :
    ∃ c, pick_next_chord s g r = some c ∧ c ∈ dests ∧ (dictGet g c).isSome = true := by
  have hmem := dictGet_mem hs
  have hall := List.all_eq_true.mp hwf (s, dests) hmem
  simp only [Bool.and_eq_true, Bool.not_eq_true'] at hall
  have hne : 0 < dests.length := by
    cases dests with
    | nil => simp at hall
    | cons x xs => simp
  have hidx : r % dests.length < dests.length := Nat.mod_lt _ hne
  refine ⟨dests[r % dests.length], ?_, List.getElem_mem hidx, ?_⟩
  · simp [pick_next_chord, hs, List.getElem?_eq_getElem hidx]
  · exact List.all_eq_true.mp hall.2 _ (List.getElem_mem hidx)

theorem extend_progression_spec {g : List (String × List String)}
    (hwf : graphWF g = true) (rnd : Nat → Nat) :
    ∀ (n k : Nat) (last : String), (dictGet g last).isSome = true →
    ∃ l, extend_progression g rnd n k last = some l ∧ l.length = n ∧
      List.Chain (chordStep g) last l := by
  intro n
  induction n with
  | zero => exact fun k last _ => ⟨[], rfl, rfl, List.Chain.nil⟩
  | succ n ih =>
    intro k last h
    obtain ⟨dests, hd⟩ := Option.isSome_iff_exists.mp h
    obtain ⟨c, hc, hcd, hcs⟩ := pick_next_chord_spec hwf hd (rnd k)
    obtain ⟨l, hl, hlen, hchain⟩ := ih (k + 1) c hcs
    refine ⟨c :: l, ?_, by simp [hlen], ?_⟩
    · simp [extend_progression, hc, hl]
    · exact List.Chain.cons (by simp [chordStep, hd, hcd]) hchain

theorem dictGet_isSome_of_mem_keys {g : List (String × List String)} {a : String}
    (h : a ∈ graphKeys g) : (dictGet g a).isSome = true := by
  induction g with
  | nil => simp [graphKeys] at h
  | cons p g' ih =>
    by_cases he : p.1 = a
    · simp [dictGet, List.find?_cons, he]
    · have ha : a ∈ graphKeys g' := by
        simp only [graphKeys, List.map_cons, List.mem_cons] at h
        rcases h with h | h
        · exact absurd h.symm he
        · exact h
      have hx : (p.1 == a) = false := beq_eq_false_iff_ne.mpr he
      have := ih ha
      simpa [dictGet, List.find?_cons, hx] using this

theorem c6_witness :
    validNoteName "H4" = false ∧ (note_number "H4").isOk = false ∧
    parse_note_name "##" = .error .invalidNoteName ∧
    note_number "##" = .error .invalidNoteName :=
  ⟨by decide, c6_note_number_failure_modes.1 "H4" (by decide), by decide,
    c6_note_number_failure_modes.2.1 "##" (by decide)⟩

theorem generate_progression_with_spec {g : List (String × List String)}
    (hwf : graphWF g = true) (hkeys : g ≠ []) (bars : Int) (hb : 1 ≤ bars)
    (seed : Option String) (rnd : Nat → Nat)
    (hseed : ∀ s, seed = some s → (dictGet g s).isSome = true ∧ s ≠ "") :
    ∃ first rest,
      generate_progression_with g bars seed rnd = some (first :: rest) ∧
      (first :: rest).length = bars.toNat ∧
      List.Chain' (chordStep g) (first :: rest) ∧
      (∀ s, seed = some s → chordStep g s first) ∧
      (seed = none → first ∈ graphKeys g) := by
  cases seed with
  | none =>
    have hlen : 0 < (graphKeys g).length := by
      have h1 : (graphKeys g).length = g.length := List.length_map _ _
      have h2 : 0 < g.length := List.length_pos.mpr hkeys
      omega
    have hidx : rnd 0 % (graphKeys g).length < (graphKeys g).length :=
      Nat.mod_lt _ hlen
    have hmem : (graphKeys g)[rnd 0 % (graphKeys g).length] ∈ graphKeys g :=
      List.getElem_mem hidx
    obtain ⟨l, hl, hlen', hchain⟩ :=
      extend_progression_spec hwf rnd (bars - 1).toNat 1 _
        (dictGet_isSome_of_mem_keys hmem)
    refine ⟨_, l, ?_, ?_, hchain, ?_, fun _ => hmem⟩
    · simp only [generate_progression_with, List.getElem?_eq_getElem hidx, hl]
    · simp only [List.length_cons, hlen']
      omega
    · intro s hs
      exact Option.noConfusion hs
  | some s =>
    obtain ⟨hsome, hns⟩ := hseed s rfl
    obtain ⟨dests, hd⟩ := Option.isSome_iff_exists.mp hsome
    obtain ⟨c, hc, hcd, hcs⟩ := pick_next_chord_spec hwf hd (rnd 0)
    obtain ⟨l, hl, hlen', hchain⟩ :=
      extend_progression_spec hwf rnd (bars - 1).toNat 1 c hcs
    refine ⟨c, l, ?_, ?_, hchain, ?_, fun h => Option.noConfusion h⟩
    · simp only [generate_progression_with, if_neg hns, hc, hl]
    · simp only [List.length_cons, hlen']
      omega
    · intro s1 hs1
      injection hs1 with hs1
      subst hs1
      simp [chordStep, hd, hcd]

/-- Claim C1: for every `bars ≥ 1`, either transition graph, and every outcome
of the random draws, `generate_progression` returns exactly `bars` chord
symbols; every adjacent pair `(a, b)` of the result satisfies `b ∈ graph[a]`;
a seeded first chord lies in `graph[seed]`, an unseeded one is one of the
graph's keys. -/
theorem c1_generate_progression_spec (bars : Int) (hb : 1 ≤ bars) (major : Bool)
    (seed : Option String) (rnd : Nat → Nat)
    (hseed : ∀ s, seed = some s → (dictGet (song_transitions major) s).isSome = true) :
    ∃ first rest,
      generate_progression bars major seed rnd = some (first :: rest) ∧
      (first :: rest).length = bars.toNat ∧
      List.Chain' (chordStep (song_transitions major)) (first :: rest) ∧
      (∀ s, seed = some s → chordStep (song_transitions major) s first) ∧
      (seed = none → first ∈ graphKeys (song_transitions major)) := by
  have hwf : graphWF (song_transitions major) = true := by
    cases major
    · exact graphWF_minor
    · exact graphWF_major
  have hkeys : song_transitions major ≠ [] := by
    cases major <;> simp [song_transitions, transitions_major, transitions_minor]
  have hempty : dictGet (song_transitions major) "" = none := by
    cases major <;> decide
  refine generate_progression_with_spec hwf hkeys bars hb seed rnd ?_
  intro s hs
  refine ⟨hseed s hs, ?_⟩
  intro he
  have h2 := hseed s hs
  rw [he, hempty] at h2
  simp at h2

theorem c1_witness :
    ∃ first rest,
      generate_progression 2 true none (fun _ => 0) = some (first :: rest) ∧
      (first :: rest).length = (2 : Int).toNat ∧
      List.Chain' (chordStep (song_transitions true)) (first :: rest) ∧
      (∀ s, (none : Option String) = some s → chordStep (song_transitions true) s first) ∧
      ((none : Option String) = none → first ∈ graphKeys (song_transitions true)) :=
  c1_generate_progression_spec 2 (by decide) true none (fun _ => 0)
    (fun s hs => by cases hs)

/-- Claim C7 counterexample: `generate_progression(0, ...)` does not fail for
`bars < 1`; it returns the one-chord progression `["I"]`. -/
theorem c7_counterexample_bars_zero :
    generate_progression 0 true none (fun _ => 0) = some ["I"] ∧ (0 : Int) < 1 :=
  ⟨rfl, by decide⟩

/-- Claim C7 (amended): the source performs no `bars ≥ 1` validation and has
no `InvalidArgument` failure: for every `bars < 1` (unseeded, either mode) and
every random outcome it still returns a progression of exactly one chord,
because `range(bars - 1)` is empty while the first chord is produced
unconditionally. -/
theorem c7_no_bars_validation (bars : Int) (hb : bars < 1) (major : Bool)
    (rnd : Nat → Nat) :
    ∃ p, generate_progression bars major none rnd = some p ∧ p.length = 1 := by
  have h0 : (bars - 1).toNat = 0 := by omega
  have hlen : 0 < (graphKeys (song_transitions major)).length := by
    cases major <;> decide
  have hidx : rnd 0 % (graphKeys (song_transitions major)).length
      < (graphKeys (song_transitions major)).length := Nat.mod_lt _ hlen
  refine ⟨[(graphKeys (song_transitions major))[rnd 0 % (graphKeys (song_transitions major)).length]], ?_, rfl⟩
  simp [generate_progression, generate_progression_with, h0,
    List.getElem?_eq_getElem hidx, extend_progression]

theorem c7_witness :
    ((0 : Int) < 1) ∧
    ∃ p, generate_progression 0 true none (fun _ => 0) = some p ∧ p.length = 1 :=
  ⟨by decide, c7_no_bars_validation 0 (by decide) true (fun _ => 0)⟩

set_option maxRecDepth 8000 in
/-- Claim C5 counterexample: the claimed wall-clock exactness fails in the
source's double-precision arithmetic.  At tempo 100 (`seconds_per_beat =
60.0/100`), the two swing-adjusted durations the playback loop passes to
`play` for an adjacent even/odd pair of eighth-note steps
(`0.167*seconds_per_beat*4` and `0.083*seconds_per_beat*4`) do not sum to the
unswung pair's total (`0.125*seconds_per_beat*4` twice) — they differ by one
unit in the last place — and likewise the scheduler's swung pair of sleeps
(`0.667*seconds_per_beat` and `0.333*seconds_per_beat`) does not sum to the
unswung `0.5*seconds_per_beat` pair's total. -/
theorem c5_counterexample_tempo100 :
    dyadicVal (addExact
        (play_seconds_fl true 0 (floatLit 125 1000) (seconds_per_beat_fl 100))
        (play_seconds_fl true 1 (floatLit 125 1000) (seconds_per_beat_fl 100)))
      ≠ dyadicVal (addExact
        (play_seconds_fl false 0 (floatLit 125 1000) (seconds_per_beat_fl 100))
        (play_seconds_fl false 1 (floatLit 125 1000) (seconds_per_beat_fl 100))) ∧
    dyadicVal (addExact
        (step_sleep_fl true 0 (seconds_per_beat_fl 100))
        (step_sleep_fl true 1 (seconds_per_beat_fl 100)))
      ≠ dyadicVal (addExact
        (step_sleep_fl false 0 (seconds_per_beat_fl 100))
        (step_sleep_fl false 1 (seconds_per_beat_fl 100))) := by
  decide

set_option maxRecDepth 8000 in
/-- Claim C5 (amended): the exactness holds of the swing constants before the
tempo scaling, not of the wall-clock products.  With swing enabled, the two
swing fractions assigned at an adjacent even/odd step pair to events of
nominal duration `0.125` sum exactly to the unswung pair's `0.25` of a
measure (and the double-precision sum of the stored constants is also exactly
`0.25`), the swung pair of sleep fractions sums exactly to the unswung
pair's `1.0` beat (likewise under double addition), and swing leaves every
nominal duration other than `0.125` unchanged; but the tempo-scaled products
`duration*seconds_per_beat*4` computed in floating point realize these sums
only up to rounding and differ from the unswung totals at most tempos
(tempo 100 in particular). -/
theorem c5_swing_pair_sum_amended (i : Nat) (hi : i % 2 = 0) (nominal : ℚ) :
    swing_duration true i 0.125 + swing_duration true (i + 1) 0.125
      = swing_duration false i 0.125 + swing_duration false (i + 1) 0.125 ∧
    swing_duration true i 0.125 + swing_duration true (i + 1) 0.125 = 0.25 ∧
    step_sleep_fraction true i + step_sleep_fraction true (i + 1)
      = step_sleep_fraction false i + step_sleep_fraction false (i + 1) ∧
    step_sleep_fraction true i + step_sleep_fraction true (i + 1) = 1 ∧
    dyadicVal (addDouble (floatLit 167 1000) (floatLit 83 1000)) = mkRat 1 4 ∧
    dyadicVal (addDouble (floatLit 667 1000) (floatLit 333 1000)) = 1 ∧
    (nominal ≠ 0.125 → swing_duration true i nominal = nominal) := by
  have hi1 : (i + 1) % 2 = 1 := by omega
  refine ⟨?_, ?_, ?_, ?_, by decide, by decide,
    fun h => by simp [swing_duration, h]⟩
  · simp [swing_duration, hi, hi1]
    norm_num
  · simp [swing_duration, hi, hi1]
    norm_num
  · simp [step_sleep_fraction, hi, hi1]
    norm_num
  · simp [step_sleep_fraction, hi, hi1]
    norm_num

set_option maxRecDepth 8000 in
theorem c5_witness :
    ((0 : Nat) % 2 = 0) ∧ ((1 : ℚ) ≠ 0.125) ∧
    (swing_duration true 0 0.125 + swing_duration true (0 + 1) 0.125
        = swing_duration false 0 0.125 + swing_duration false (0 + 1) 0.125 ∧
      swing_duration true 0 0.125 + swing_duration true (0 + 1) 0.125 = 0.25 ∧
      step_sleep_fraction true 0 + step_sleep_fraction true (0 + 1)
        = step_sleep_fraction false 0 + step_sleep_fraction false (0 + 1) ∧
      step_sleep_fraction true 0 + step_sleep_fraction true (0 + 1) = 1 ∧
      dyadicVal (addDouble (floatLit 167 1000) (floatLit 83 1000)) = mkRat 1 4 ∧
      dyadicVal (addDouble (floatLit 667 1000) (floatLit 333 1000)) = 1 ∧
      ((1 : ℚ) ≠ 0.125 → swing_duration true 0 1 = 1)) :=
  ⟨rfl, by norm_num, c5_swing_pair_sum_amended 0 rfl 1⟩

/-- Claim C9: the main program builds the chorus melody by calling
`generate_melody` on the verse progression (src/foo.py line 303), not on the
chorus progression generated at line 281: the chorus melody is identical for
any two values of the chorus progression, and equals the melody generated
from the verse progression's tone pools. -/
theorem c9_chorus_melody_uses_verse_progression (key : String)
    (verse_progression chorus_progression other_chorus : List String)
    (major : Bool) (rRepeat : Nat) (rnd : Nat → Nat) :
    chorus_melody_of key verse_progression chorus_progression major rRepeat rnd
      = chorus_melody_of key verse_progression other_chorus major rRepeat rnd ∧
    chorus_melody_of key verse_progression chorus_progression major rRepeat rnd
      = (match generate_melody key verse_progression (melody_repeats_draw rRepeat)
              major rnd with
         | none => none
         | some m => some (if melody_repeats_draw rRepeat = 2 then m ++ m else m)) :=
  ⟨rfl, rfl⟩

theorem fillChord_stop (rnd : Nat → Nat) (L ip1 : Nat) (ct nct : List Int)
    (t k : Nat) (last : Option Int) (ht : ¬ t < 8 * ip1) :
    fillChord rnd L ip1 ct nct t k last = some ([], t, k, last) := by
  rw [fillChord, dif_neg ht]

theorem fillChord_step (rnd : Nat → Nat) (L ip1 : Nat) (ct nct : List Int)
    (t k : Nat) (last : Option Int) (ht : t < 8 * ip1) (d : Nat) (pitch : Int)
    (hd : ((note_vals.filter (fun dp => dp.1 + t ≤ 8 * L)).map
        (fun dp => dp.1))[rnd k % ((note_vals.filter (fun dp => dp.1 + t ≤ 8 * L)).map
        (fun dp => dp.1)).length]? = some d)
    (hpitch : (if rnd (k + 1) % 11 == 10 then nct
        else ct)[rnd (k + 2) % (if rnd (k + 1) % 11 == 10 then nct
        else ct).length]? = some pitch) :
    fillChord rnd L ip1 ct nct t k last =
      match fillChord rnd L ip1 ct nct (t + d) (k + 3) (some pitch) with
      | none => none
      | some (rest, tF, kF, lastF) =>
        some ((some (pitch, 80, d) :: List.replicate (d - 1) none) ++ rest,
              tF, kF, lastF) := by
  rw [fillChord, dif_pos ht]
  dsimp only
  split
  · rename_i h
    rw [hd] at h
    cases h
  · rename_i d1 h
    rw [hd] at h
    injection h with h
    subst h
    split
    · rename_i h2
      rw [hpitch] at h2
      cases h2
    · rename_i pitch1 h2
      rw [hpitch] at h2
      injection h2 with h2
      subst h2
      rfl

theorem mem_possible {L t d : Nat}
    (h : d ∈ (note_vals.filter (fun dp => dp.1 + t ≤ 8 * L)).map (fun dp => dp.1)) :
    1 ≤ d ∧ d + t ≤ 8 * L := by
  rcases List.mem_map.mp h with ⟨dp, hdp, rfl⟩
  rcases List.mem_filter.mp hdp with ⟨hmem, hpred⟩
  refine ⟨?_, of_decide_eq_true hpred⟩
  revert hmem
  simp only [note_vals, List.mem_cons, List.not_mem_nil, or_false]
  rintro (rfl | rfl | rfl | rfl | rfl | rfl | rfl | rfl) <;> simp

theorem possible_nonempty {L t : Nat} (h : t + 1 ≤ 8 * L) :
    1 ∈ (note_vals.filter (fun dp => dp.1 + t ≤ 8 * L)).map (fun dp => dp.1) := by
  refine List.mem_map.mpr ⟨(1, 2), List.mem_filter.mpr ⟨?_, ?_⟩, rfl⟩
  · simp [note_vals]
  · simpa using (by omega : 1 + t ≤ 8 * L)

theorem fillChord_spec (rnd : Nat → Nat) (L ip1 : Nat) (ct nct : List Int)
    (hct : ct ≠ []) (hnct : nct ≠ []) (hip1 : ip1 ≤ L) :
    ∀ (m t k : Nat) (last : Option Int), 8 * ip1 - t ≤ m → t ≤ 8 * L →
    ∃ slots tF kF lastF,
      fillChord rnd L ip1 ct nct t k last = some (slots, tF, kF, lastF) ∧
      slots.length + t = tF ∧ 8 * ip1 ≤ tF ∧ tF ≤ 8 * L := by
  intro m
  induction m with
  | zero =>
    intro t k last hm ht
    have hge : ¬ t < 8 * ip1 := by omega
    exact ⟨[], t, k, last, fillChord_stop rnd L ip1 ct nct t k last hge,
      by simp, by omega, ht⟩
  | succ m ih =>
    intro t k last hm ht
    by_cases htlt : t < 8 * ip1
    · have hp1 := possible_nonempty (L := L) (t := t) (by omega)
      have hplen : 0 <
          ((note_vals.filter (fun dp => dp.1 + t ≤ 8 * L)).map (fun dp => dp.1)).length :=
        List.length_pos.mpr (List.ne_nil_of_mem hp1)
      have hidx : rnd k %
          ((note_vals.filter (fun dp => dp.1 + t ≤ 8 * L)).map (fun dp => dp.1)).length <
          ((note_vals.filter (fun dp => dp.1 + t ≤ 8 * L)).map (fun dp => dp.1)).length :=
        Nat.mod_lt _ hplen
      obtain ⟨hd1, hd2⟩ := mem_possible (List.getElem_mem hidx)
      have hpool : (if rnd (k + 1) % 11 == 10 then nct else ct) ≠ [] := by
        split <;> assumption
      have hplen2 : 0 < (if rnd (k + 1) % 11 == 10 then nct else ct).length :=
        List.length_pos.mpr hpool
      have hjdx : rnd (k + 2) % (if rnd (k + 1) % 11 == 10 then nct else ct).length <
          (if rnd (k + 1) % 11 == 10 then nct else ct).length := Nat.mod_lt _ hplen2
      obtain ⟨slots1, tF, kF, lastF, hrec, hlen1, hge1, hle1⟩ :=
        ih (t + ((note_vals.filter (fun dp => dp.1 + t ≤ 8 * L)).map
            (fun dp => dp.1))[rnd k % ((note_vals.filter (fun dp => dp.1 + t ≤ 8 * L)).map
            (fun dp => dp.1)).length]) (k + 3)
          (some ((if rnd (k + 1) % 11 == 10 then nct
            else ct)[rnd (k + 2) % (if rnd (k + 1) % 11 == 10 then nct else ct).length]))
          (by omega) (by omega)
      refine ⟨(some ((if rnd (k + 1) % 11 == 10 then nct
            else ct)[rnd (k + 2) % (if rnd (k + 1) % 11 == 10 then nct else ct).length],
            80, ((note_vals.filter (fun dp => dp.1 + t ≤ 8 * L)).map
            (fun dp => dp.1))[rnd k % ((note_vals.filter (fun dp => dp.1 + t ≤ 8 * L)).map
            (fun dp => dp.1)).length])
          :: List.replicate (((note_vals.filter (fun dp => dp.1 + t ≤ 8 * L)).map
            (fun dp => dp.1))[rnd k % ((note_vals.filter (fun dp => dp.1 + t ≤ 8 * L)).map
            (fun dp => dp.1)).length] - 1) none) ++ slots1,
          tF, kF, lastF, ?_, ?_, hge1, hle1⟩
      · rw [fillChord_step rnd L ip1 ct nct t k last htlt _ _
            (List.getElem?_eq_getElem hidx) (List.getElem?_eq_getElem hjdx), hrec]
      · simp only [List.length_append, List.length_cons, List.length_replicate]
        omega
    · exact ⟨[], t, k, last, fillChord_stop rnd L ip1 ct nct t k last htlt,
        by simp, by omega, ht⟩

theorem map_dropLast {α β : Type} (f : α → β) :
    ∀ l : List α, (l.map f).dropLast = l.dropLast.map f := by
  intro l
  induction l with
  | nil => rfl
  | cons a t ih =>
    cases t with
    | nil => rfl
    | cons b t2 => exact congrArg (List.cons (f a)) ih

theorem map_filter_comm {α β : Type} (f : α → β) (p : β → Bool) :
    ∀ l : List α, (l.map f).filter p = (l.filter (fun a => p (f a))).map f := by
  intro l
  induction l with
  | nil => rfl
  | cons a t ih =>
    simp only [List.map_cons, List.filter_cons]
    cases h : p (f a) <;> simp [h, ih]

theorem mem_base_shift (base s : Int) (toff : List Int) :
    ((base + s) ∈ (toff.map (fun x => x + base)
        ++ (toff.map (fun x => x + base)).map (fun x => x + 12)))
      ↔ s ∈ (toff ++ toff.map (fun u => u + 12)) := by
  simp only [List.mem_append, List.mem_map]
  constructor
  · rintro (⟨u, hu, he⟩ | ⟨v, ⟨u, hu, rfl⟩, he⟩)
    · left
      have : u = s := by omega
      exact this ▸ hu
    · right
      exact ⟨u, hu, by omega⟩
  · rintro (hs | ⟨u, hu, rfl⟩)
    · left
      exact ⟨s, hs, by omega⟩
    · right
      exact ⟨u + base, ⟨u, hu, rfl⟩, by omega⟩

theorem triad_vals_ne_nil : ∀ p ∈ triad_notes, p.2 ≠ [] := by decide

theorem nct_off_nonempty :
    ∀ p ∈ triad_notes, ∀ major : Bool,
      (((if major then major_scale_progression else minor_scale_progression).dropLast).filter
        (fun s => !decide (s ∈ (p.2 ++ p.2.map (fun u => u + 12))))) ≠ [] := by
  decide

theorem key2_note_number : ∀ c ∈ keys_in_octave, ∃ b : Int, note_number (c ++ "2") = .ok b := by
  intro c hc
  simp only [keys_in_octave, List.mem_append, List.mem_cons, List.not_mem_nil, or_false] at hc
  rcases hc with (rfl | rfl | rfl | rfl | rfl | rfl) | (rfl | rfl | rfl | rfl | rfl | rfl) <;>
    exact ⟨_, rfl⟩

theorem melodyChords_spec (rnd : Nat → Nat) (key : String) (major : Bool)
    (hkey : key ∈ keys_in_octave) (L : Nat) :
    ∀ (suffix : List String) (i t k : Nat),
      (∀ c ∈ suffix, (dictGet triad_notes c).isSome = true) →
      i + suffix.length = L → 8 * i ≤ t → t ≤ 8 * L →
      ∃ slots tF kF,
        melodyChords rnd key major L suffix i t k = some (slots, tF, kF) ∧
        slots.length + t = tF ∧ 8 * (i + suffix.length) ≤ tF ∧ tF ≤ 8 * L := by
  intro suffix
  induction suffix with
  | nil =>
    intro i t k _ _ hti htL
    exact ⟨[], t, k, rfl, by simp, by simpa using hti, htL⟩
  | cons chord rest ih =>
    intro i t k hsym hL hti htL
    obtain ⟨base, hb⟩ := key2_note_number key hkey
    have hcsym : (dictGet triad_notes chord).isSome = true :=
      hsym chord (List.mem_cons_self _ _)
    obtain ⟨toff, hct⟩ := Option.isSome_iff_exists.mp hcsym
    have hmemt : (chord, toff) ∈ triad_notes := dictGet_mem hct
    have htoff : toff ≠ [] := triad_vals_ne_nil (chord, toff) hmemt
    have hnds : natToDigitString 2 = "2" := by
      rw [natToDigitString, natDigits]
      rfl
    have hscale : generate_scale key 2 major
        = .ok ((if major then major_scale_progression else minor_scale_progression).map
            (fun x => base + x)) := by
      rw [generate_scale, hnds, hb]
    have hchord : get_chord chord base = some (toff.map (fun x => x + base)) := by
      rw [get_chord, hct]
    -- the chord-tone pool is non-empty
    have hctne : (toff.map (fun x => x + base))
        ++ (toff.map (fun x => x + base)).map (fun x => x + 12) ≠ [] := by
      intro he
      rcases List.append_eq_nil.mp he with ⟨h1, _⟩
      exact htoff (List.map_eq_nil_iff.mp h1)
    -- rewrite the non-chord pool as a base shift of an offsets-level pool
    have hnct0 : ((if major then major_scale_progression
          else minor_scale_progression).map (fun x => base + x)).dropLast.filter
            (fun x => !decide (x ∈ (toff.map (fun x => x + base)
              ++ (toff.map (fun x => x + base)).map (fun x => x + 12))))
        = ((if major then major_scale_progression
            else minor_scale_progression).dropLast.filter
              (fun s => !decide (s ∈ (toff ++ toff.map (fun u => u + 12))))).map
            (fun x => base + x) := by
      rw [map_dropLast, map_filter_comm]
      refine congrArg _ (List.filter_congr ?_)
      intro s _
      exact congrArg (fun b => !b) (decide_eq_decide.mpr (mem_base_shift base s toff))
    have hnctne : ((if major then major_scale_progression
          else minor_scale_progression).map (fun x => base + x)).dropLast.filter
            (fun x => !decide (x ∈ (toff.map (fun x => x + base)
              ++ (toff.map (fun x => x + base)).map (fun x => x + 12)))) ≠ [] := by
      rw [hnct0]
      intro he
      exact nct_off_nonempty (chord, toff) hmemt major (List.map_eq_nil_iff.mp he)
    -- run the bar-filling loop for this chord
    have hip1 : i + 1 ≤ L := by
      simp only [List.length_cons] at hL
      omega
    obtain ⟨slots, t1, k1, last1, hfill, hlen1, hge1, hle1⟩ :=
      fillChord_spec rnd L (i + 1)
        ((toff.map (fun x => x + base))
          ++ (toff.map (fun x => x + base)).map (fun x => x + 12))
        ((((if major then major_scale_progression
            else minor_scale_progression).map (fun x => base + x)).dropLast.filter
              (fun x => !decide (x ∈ (toff.map (fun x => x + base)
                ++ (toff.map (fun x => x + base)).map (fun x => x + 12)))))
          ++ ((((if major then major_scale_progression
            else minor_scale_progression).map (fun x => base + x)).dropLast.filter
              (fun x => !decide (x ∈ (toff.map (fun x => x + base)
                ++ (toff.map (fun x => x + base)).map (fun x => x + 12))))).map
            (fun x => x + 12)))
        hctne
        (by
          intro he
          rcases List.append_eq_nil.mp he with ⟨h1, _⟩
          exact hnctne h1)
        hip1 (8 * (i + 1) - t) t k none (by omega) htL
    -- run the remaining chords
    obtain ⟨slots1, t2, k2, hrest, hlen2, hge2, hle2⟩ :=
      ih (i + 1) t1 k1 (fun c hc => hsym c (List.mem_cons_of_mem _ hc))
        (by simp only [List.length_cons] at hL; omega) hge1 hle1
    refine ⟨slots ++ slots1, t2, k2, ?_, ?_, ?_, hle2⟩
    · simp only [melodyChords, hscale, hb, hchord, hfill, hrest]
    · simp only [List.length_append]
      omega
    · simp only [List.length_cons]
      omega

theorem melodyRepeats_spec (rnd : Nat → Nat) (key : String) (major : Bool)
    (hkey : key ∈ keys_in_octave) (prog : List String)
    (hsym : ∀ c ∈ prog, (dictGet triad_notes c).isSome = true) :
    ∀ r k, ∃ slots kF,
      melodyRepeats rnd key major prog r k = some (slots, kF) ∧
      slots.length = 8 * prog.length * r := by
  intro r
  induction r with
  | zero => exact fun k => ⟨[], k, rfl, by simp⟩
  | succ r ih =>
    intro k
    obtain ⟨slots, tF, kF, hrun, hlen, hge, hle⟩ :=
      melodyChords_spec rnd key major hkey prog.length prog 0 0 k hsym
        (by simp) (by simp) (by simp)
    obtain ⟨slots1, kF1, hrun1, hlen1⟩ := ih kF
    refine ⟨slots ++ slots1, kF1, ?_, ?_⟩
    · simp only [melodyRepeats, hrun, hrun1]
    · simp only [List.length_append, hlen1]
      simp only [Nat.zero_add] at hge
      have : tF = 8 * prog.length := by omega
      have hslots : slots.length = 8 * prog.length := by omega
      rw [hslots]
      ring

/-- Claim C2: for every key of the program's key table, either mode, every
progression of valid chord symbols of length `L`, every repeat count `R ≥ 1`
and every outcome of the random duration, pool and pitch draws,
`generate_melody` succeeds (its `assert` holds) and returns exactly
`8 * L * R` grid slots — note onsets plus continuation/rest slots — i.e. the
produced notes and rests fill `L * R` bars exactly on the 8-steps-per-bar
grid. -/
theorem c2_generate_melody_length (key : String) (hkey : key ∈ keys_in_octave)
    (prog : List String)
    (hsym : ∀ c ∈ prog, (dictGet triad_notes c).isSome = true)
    (R : Nat) (_hR : 1 ≤ R) (major : Bool) (rnd : Nat → Nat) :
    ∃ m, generate_melody key prog R major rnd = some m ∧
      m.length = 8 * prog.length * R := by
  obtain ⟨slots, kF, hrun, hlen⟩ :=
    melodyRepeats_spec rnd key major hkey prog hsym R 0
  refine ⟨slots, ?_, hlen⟩
  simp only [generate_melody, hrun]
  rw [if_pos hlen]

theorem c2_witness :
    ∃ m, generate_melody "C" ["I"] 1 true (fun _ => 0) = some m ∧
      m.length = 8 * (["I"] : List String).length * 1 :=
  c2_generate_melody_length "C" (by decide) ["I"] (by decide) 1 (by decide) true
    (fun _ => 0)

end Muse
